import Mathlib

/-!
Verification of the flashlight residual-composition engine against its
design document.

The repository ships the unit tests (`ContribModuleTest.cpp`) and a common
utility header (`Utils.h`); the bodies of `fl::Residual` and
`fl::divRoundUp` are declared and exercised there but their definitions are
not part of the source tree at hand.  Following the design document, the
container is embedded shallowly: tensors become an arbitrary type `α` with
addition, scale factors an arbitrary scalar type `S` acting on `α`, and a
module is any function `α → α` (the document's capability contract:
"accepts a tensor, returns a tensor, is deterministic for fixed
parameters").  Registration failures are `Except` values standing for the
`InvalidArgument` exception.
-/

namespace Flashlight

/-- The error taxonomy of the design document relevant to registration:
`InvalidArgument` signals bad slot indices at registration time. -/
inductive FlError where
  | invalidArgument
  deriving DecidableEq

/-- Modelled from the spec: a shortcut edge `(source slot, destination slot,
optional projection module)` of the shortcut registry. -/
structure Shortcut (α : Type) where
  src : Nat
  dst : Nat
  proj : Option (α → α)

/-- Modelled from the spec: the `Residual` container owns an ordered list of
modules (insertion order is chain order), a shortcut registry in
registration order, and a scale registry mapping slot indices to factors.
The `Residual` class itself is not under `src/`; this is the spec's data
model. -/
structure Residual (α S : Type) where
  modules : List (α → α)
  shortcuts : List (Shortcut α)
  scales : List (Nat × S)

/-- The container is constructed empty. -/
def Residual.empty {α S : Type} : Residual α S := ⟨[], [], []⟩

/-- `N`, the number of modules added so far. -/
def Residual.N {α S : Type} (r : Residual α S) : Nat := r.modules.length

/-- Modelled from the spec: `add` appends the module to the chain; the new
module occupies the new slot `N`. -/
def Residual.add {α S : Type} (r : Residual α S) (m : α → α) : Residual α S :=
  { r with modules := r.modules ++ [m] }

/-- Modelled from the spec: `addShortcut(from, to[, projection])` registers
an edge after eager validation against the module count at call time,
requiring `0 ≤ from < to ≤ N+1` with `from ≤ N`; it fails with
`InvalidArgument` otherwise.  The public interface takes `int` indices. -/
def Residual.addShortcut {α S : Type} (r : Residual α S) (src dst : Int)
    (proj : Option (α → α)) : Except FlError (Residual α S) :=
  if 0 ≤ src ∧ src < dst ∧ src ≤ (r.N : Int) ∧ 1 ≤ dst ∧ dst ≤ (r.N : Int) + 1 then
    .ok { r with shortcuts := r.shortcuts ++ [⟨src.toNat, dst.toNat, proj⟩] }
  else
    .error .invalidArgument

/-- Modelled from the spec: `addScale(slot, factor)` registers (or
overwrites) the scale factor applied at `slot`; precondition
`1 ≤ slot ≤ N+1`, failing with `InvalidArgument` otherwise.  The scale
registry is a mapping, so a registration replaces any entry for the slot. -/
def Residual.addScale {α S : Type} (r : Residual α S) (slot : Int)
    (factor : S) : Except FlError (Residual α S) :=
  if 1 ≤ slot ∧ slot ≤ (r.N : Int) + 1 then
    .ok { r with scales :=
      (r.scales.filter (fun p => p.1 ≠ slot.toNat)) ++ [(slot.toNat, factor)] }
  else
    .error .invalidArgument

/-- The value a shortcut edge carries from the source slot value `v`:
`projection.forward(v)` when the edge has a projection, `v` otherwise. -/
def Shortcut.tap {α : Type} (e : Shortcut α) (v : α) : α :=
  match e.proj with
  | some p => p v
  | none => v

/-- Step 2b of the forward algorithm: starting from `base`, add the
contribution of every registered shortcut with `to == i`, in registration
order.  `acc` is the accumulation slot table and `d` the (never relevant
for valid containers) out-of-range default. -/
def gatherD {α : Type} [Add α] (shortcuts : List (Shortcut α)) (d : α)
    (acc : List α) (i : Nat) (base : α) : α :=
  shortcuts.foldl (fun c e => if e.dst = i then c + e.tap (acc.getD e.src d) else c) base

/-- Step 2c: apply the registered scale for slot `i`, when one exists. -/
def scaleAt {α S : Type} [SMul S α] (scales : List (Nat × S)) (i : Nat) (v : α) : α :=
  match scales.lookup i with
  | some f => f • v
  | none => v

/-- The combined-then-scaled value destined for slot `i`: shortcut summation
on top of `accumulation[i-1]` first, scaling second. -/
def combineD {α S : Type} [Add α] [SMul S α] (r : Residual α S) (d : α)
    (acc : List α) (i : Nat) : α :=
  scaleAt r.scales i (gatherD r.shortcuts d acc i (acc.getD (i - 1) d))

/-- The main loop (step 2): at slot `i`, module `i` is invoked on the
combined and scaled value and its output appended to the slot table. -/
def runModsD {α S : Type} [Add α] [SMul S α] (r : Residual α S) (d : α)
    (mods : List (α → α)) (i : Nat) (acc : List α) : List α :=
  match mods with
  | [] => acc
  | m :: rest => runModsD r d rest (i + 1) (acc ++ [m (combineD r d acc i)])

/-- The accumulation slot table produced by `forward(x)`: slot `0` is the
external input, slot `i ∈ 1..N` is module `i`'s output. -/
def Residual.accTableD {α S : Type} [Add α] [SMul S α] (r : Residual α S)
    (d : α) (x : α) : List α :=
  runModsD r d r.modules 1 [x]

/-- Modelled from the spec: `forward` with an explicit out-of-range default
`d` — single ascending pass over slots `1..N+1`, the terminal slot `N+1`
combining and scaling without invoking a module. -/
def Residual.forwardD {α S : Type} [Add α] [SMul S α] (r : Residual α S)
    (d : α) (x : α) : α :=
  combineD r d (r.accTableD d x) (r.N + 1)

/-- Modelled from the spec: `Residual.forward(input)`. -/
def Residual.forward {α S : Type} [Add α] [SMul S α] [Inhabited α]
    (r : Residual α S) (x : α) : α :=
  r.forwardD default x

/-! ### Basic facts about `List.getD` used throughout -/

theorem getD_append_lt {β : Type} (l1 l2 : List β) (d : β) (j : Nat)
    (h : j < l1.length) : (l1 ++ l2).getD j d = l1.getD j d := by
  induction l1 generalizing j with
  | nil => simp at h
  | cons a t ih =>
    cases j with
    | zero => rfl
    | succ j => simpa using ih j (by simpa using h)

theorem getD_append_len {β : Type} (l1 : List β) (a d : β) :
    (l1 ++ [a]).getD l1.length d = a := by
  induction l1 with
  | nil => rfl
  | cons b t ih => simp [ih]

theorem getD_irrel {β : Type} (l : List β) (j : Nat) (h : j < l.length)
    (d1 d2 : β) : l.getD j d1 = l.getD j d2 := by
  induction l generalizing j with
  | nil => simp at h
  | cons a t ih =>
    cases j with
    | zero => rfl
    | succ j => simpa using ih j (by simpa using h)

/-! ### Structure of the forward pass -/

theorem runModsD_length {α S : Type} [Add α] [SMul S α] (r : Residual α S)
    (d : α) (mods : List (α → α)) (i : Nat) (acc : List α) :
    (runModsD r d mods i acc).length = acc.length + mods.length := by
  induction mods generalizing i acc with
  | nil => simp [runModsD]
  | cons m rest ih =>
    rw [runModsD, ih]
    simp
    omega

theorem runModsD_stable {α S : Type} [Add α] [SMul S α] (r : Residual α S)
    (d : α) (mods : List (α → α)) (i : Nat) (acc : List α) (j : Nat)
    (h : j < acc.length) (d2 : α) :
    (runModsD r d mods i acc).getD j d2 = acc.getD j d2 := by
  induction mods generalizing i acc with
  | nil => rfl
  | cons m rest ih =>
    rw [runModsD, ih (i + 1) (acc ++ [m (combineD r d acc i)]) (by simp; omega)]
    exact getD_append_lt _ _ _ _ h

theorem gatherD_congr {α : Type} [Add α] (shortcuts : List (Shortcut α))
    (d1 d2 : α) (acc1 acc2 : List α) (i : Nat) (base : α)
    (h : ∀ e ∈ shortcuts, e.dst = i → acc1.getD e.src d1 = acc2.getD e.src d2) :
    gatherD shortcuts d1 acc1 i base = gatherD shortcuts d2 acc2 i base := by
  induction shortcuts generalizing base with
  | nil => rfl
  | cons e rest ih =>
    rw [gatherD, gatherD, List.foldl_cons, List.foldl_cons]
    have hrest : ∀ e2 ∈ rest, e2.dst = i → acc1.getD e2.src d1 = acc2.getD e2.src d2 :=
      fun e2 he2 => h e2 (List.mem_cons_of_mem _ he2)
    by_cases hdst : e.dst = i
    · rw [if_pos hdst, if_pos hdst, h e (List.mem_cons_self _ _) hdst]
      exact ih _ hrest
    · rw [if_neg hdst, if_neg hdst]
      exact ih _ hrest

theorem combineD_congr {α S : Type} [Add α] [SMul S α] (r : Residual α S)
    (d1 d2 : α) (acc1 acc2 : List α) (i : Nat)
    (hbase : acc1.getD (i - 1) d1 = acc2.getD (i - 1) d2)
    (h : ∀ e ∈ r.shortcuts, e.dst = i → acc1.getD e.src d1 = acc2.getD e.src d2) :
    combineD r d1 acc1 i = combineD r d2 acc2 i := by
  rw [combineD, combineD, hbase, gatherD_congr r.shortcuts d1 d2 acc1 acc2 i _ h]

theorem runModsD_getD {α S : Type} [Add α] [SMul S α] (r : Residual α S)
    (d d2 : α) (hs : ∀ e ∈ r.shortcuts, e.src < e.dst) :
    ∀ (mods : List (α → α)) (i : Nat) (acc : List α), acc.length = i → 1 ≤ i →
      ∀ t, t < mods.length →
        (runModsD r d mods i acc).getD (i + t) d2 =
          (mods.getD t (fun a => a)) (combineD r d2 (runModsD r d mods i acc) (i + t)) := by
  intro mods
  induction mods with
  | nil => intro i acc _ _ t ht; simp at ht
  | cons m rest ih =>
    intro i acc hlen hi t ht
    rw [runModsD]
    cases t with
    | zero =>
      have hlen2 : (acc ++ [m (combineD r d acc i)]).length = i + 1 := by simp [hlen]
      simp only [Nat.add_zero]
      have hstable := runModsD_stable r d rest (i + 1) (acc ++ [m (combineD r d acc i)]) i
        (by omega) d2
      rw [hstable]
      have hat : (acc ++ [m (combineD r d acc i)]).getD i d2 = m (combineD r d acc i) := by
        rw [← hlen]; exact getD_append_len acc _ d2
      rw [hat]
      have hcomb : combineD r d acc i =
          combineD r d2 (runModsD r d rest (i + 1) (acc ++ [m (combineD r d acc i)])) i := by
        apply combineD_congr
        · have h1 : i - 1 < acc.length := by omega
          rw [getD_irrel acc (i - 1) h1 d d2,
            ← getD_append_lt acc [m (combineD r d acc i)] d2 (i - 1) h1,
            ← runModsD_stable r d rest (i + 1) (acc ++ [m (combineD r d acc i)]) (i - 1)
              (by simp; omega) d2]
        · intro e he hdst
          have h1 : e.src < acc.length := by
            have := hs e he
            omega
          rw [getD_irrel acc e.src h1 d d2,
            ← getD_append_lt acc [m (combineD r d acc i)] d2 e.src h1,
            ← runModsD_stable r d rest (i + 1) (acc ++ [m (combineD r d acc i)]) e.src
              (by simp; omega) d2]
      rw [← hcomb]
      rfl
    | succ t =>
      have harith : i + (t + 1) = (i + 1) + t := by omega
      rw [harith]
      have := ih (i + 1) (acc ++ [m (combineD r d acc i)]) (by simp [hlen]) (by omega)
        t (by simpa using ht)
      simpa using this

/-- The spec-side list of shortcut contributions into slot `k`: one term per
registered edge with `to == k`, kept in registration order. -/
def Residual.shortTerms {α S : Type} (r : Residual α S) (T : List α) (d : α)
    (k : Nat) : List α :=
  (r.shortcuts.filter (fun e => decide (e.dst = k))).map (fun e => e.tap (T.getD e.src d))

/-- The spec-side description of the value consumed at slot `k`: the
registered scale factor (`1` if none) times the sum of `accumulation[k-1]`
and the shortcut terms of slot `k` in registration order. -/
def Residual.specConsumed {α S : Type} [Add α] [SMul S α] [One S]
    (r : Residual α S) (d x : α) (k : Nat) : α :=
  ((r.scales.lookup k).getD 1) •
    ((r.shortTerms (r.accTableD d x) d k).foldl (fun a b => a + b)
      ((r.accTableD d x).getD (k - 1) d))

theorem gatherD_eq_filter {α : Type} [Add α] (shortcuts : List (Shortcut α))
    (d : α) (acc : List α) (i : Nat) (base : α) :
    gatherD shortcuts d acc i base =
      ((shortcuts.filter (fun e => decide (e.dst = i))).map
        (fun e => e.tap (acc.getD e.src d))).foldl (fun a b => a + b) base := by
  induction shortcuts generalizing base with
  | nil => rfl
  | cons e rest ih =>
    rw [gatherD, List.foldl_cons]
    by_cases hdst : e.dst = i
    · rw [if_pos hdst, List.filter_cons_of_pos (by simpa using hdst), List.map_cons,
        List.foldl_cons]
      exact ih _
    · rw [if_neg hdst, List.filter_cons_of_neg (by simpa using hdst)]
      exact ih _

theorem scaleAt_eq_getD {α S : Type} [Monoid S] [MulAction S α]
    (scales : List (Nat × S)) (i : Nat) (v : α) :
    scaleAt scales i v = ((scales.lookup i).getD 1) • v := by
  cases h : scales.lookup i <;> simp [scaleAt, h, one_smul]

theorem combineD_eq_specConsumed {α S : Type} [Add α] [Monoid S] [MulAction S α]
    (r : Residual α S) (d x : α) (k : Nat) :
    combineD r d (r.accTableD d x) k = r.specConsumed d x k := by
  rw [combineD, gatherD_eq_filter, scaleAt_eq_getD]
  rfl

/-- A concrete container used to instantiate hypotheses at concrete inputs:
two integer modules, one projected shortcut into slot 2 and a scale on
slot 2. -/
def sampleRes : Residual ℤ ℤ :=
  ⟨[fun a => a + 1, fun a => 2 * a], [⟨0, 2, some (fun a => 3 * a)⟩], [(2, 5)]⟩

/-- A concrete container with two modules and empty registries. -/
def seqRes : Residual ℤ ℤ := ⟨[fun a => a + 1, fun a => 2 * a], [], []⟩

/-- C1: during `forward(input)`, the value consumed by module `k`
(`1 ≤ k ≤ N`), and the value returned at the terminal slot `N+1`, equals
the registered scale factor for `k` (`1` if none) times the sum of
`accumulation[k-1]` and, in registration order, one term per shortcut edge
with `to == k` — `projection.forward(accumulation[from])` when the edge has
a projection and `accumulation[from]` otherwise.  Summation precedes
scaling, and the scaled value is what module `k` is invoked on (slot table
entry `k` is module `k` applied to it) or what is returned at `N+1`. -/
theorem forward_slot_semantics {α S : Type} [Add α] [Monoid S] [MulAction S α]
    (r : Residual α S) (d x : α)
    (hs : ∀ e ∈ r.shortcuts, e.src < e.dst) :
    (∀ k, 1 ≤ k → k ≤ r.N →
        (r.accTableD d x).getD k d =
          (r.modules.getD (k - 1) (fun a => a)) (r.specConsumed d x k))
    ∧ r.forwardD d x = r.specConsumed d x (r.N + 1) := by
  constructor
  · intro k hk1 hkN
    have hN : r.N = r.modules.length := rfl
    have h2 := runModsD_getD r d d hs r.modules 1 [x] (by simp) (le_refl 1)
      (k - 1) (by omega)
    have hk : 1 + (k - 1) = k := by omega
    rw [hk] at h2
    calc (r.accTableD d x).getD k d
        = (r.modules.getD (k - 1) (fun a => a))
            (combineD r d (r.accTableD d x) k) := h2
      _ = (r.modules.getD (k - 1) (fun a => a)) (r.specConsumed d x k) := by
            rw [combineD_eq_specConsumed]
  · rw [Residual.forwardD, combineD_eq_specConsumed]

/-- The first part of `forward_slot_semantics` instantiated on `sampleRes`
at slot `2` with input `1`: module `2` is invoked on
`5 * (accumulation[1] + 3 * accumulation[0])`. -/
theorem forward_slot_semantics_witness :
    (sampleRes.accTableD 0 1).getD 2 0 =
      (sampleRes.modules.getD 1 (fun a => a)) (sampleRes.specConsumed 0 1 2) :=
  (forward_slot_semantics sampleRes 0 1 (by decide)).1 2 (by decide) (by decide)

theorem combineD_no_reg {α S : Type} [Add α] [SMul S α] (r : Residual α S)
    (h1 : r.shortcuts = []) (h2 : r.scales = []) (d : α) (acc : List α)
    (i : Nat) : combineD r d acc i = acc.getD (i - 1) d := by
  rw [combineD, h1, h2]
  rfl

theorem runModsD_no_reg_last {α S : Type} [Add α] [SMul S α] (r : Residual α S)
    (h1 : r.shortcuts = []) (h2 : r.scales = []) (d : α) :
    ∀ (mods : List (α → α)) (i : Nat) (acc : List α), acc.length = i → 1 ≤ i →
      (runModsD r d mods i acc).getD (i + mods.length - 1) d =
        mods.foldl (fun v m => m v) (acc.getD (i - 1) d) := by
  intro mods
  induction mods with
  | nil => intro i acc _ _; simp [runModsD]
  | cons m rest ih =>
    intro i acc hlen hi
    rw [runModsD, List.foldl_cons]
    have harith : i + (m :: rest).length - 1 = (i + 1) + rest.length - 1 := by
      simp only [List.length_cons]
      omega
    rw [harith, ih (i + 1) (acc ++ [m (combineD r d acc i)]) (by simp [hlen]) (by omega)]
    congr 1
    have hidx : (i + 1) - 1 = acc.length := by omega
    rw [hidx, getD_append_len, combineD_no_reg r h1 h2]

/-- C2: on a container with no registered shortcut and no registered scale,
`forward(x)` is the plain sequential composition of the added modules
applied to `x` in insertion order. -/
theorem forward_sequential_composition {α S : Type} [Add α] [SMul S α]
    [Inhabited α] (r : Residual α S) (h1 : r.shortcuts = [])
    (h2 : r.scales = []) (x : α) :
    r.forward x = r.modules.foldl (fun v m => m v) x := by
  rw [Residual.forward, Residual.forwardD, combineD_no_reg r h1 h2]
  have hlast := runModsD_no_reg_last r h1 h2 default r.modules 1 [x] rfl (le_refl 1)
  have harith : r.N + 1 - 1 = 1 + r.modules.length - 1 := by
    have hN : r.N = r.modules.length := rfl
    omega
  rw [harith]
  rw [Residual.accTableD, hlast]
  rfl

/-- C2 on `seqRes` (modules `a+1` then `2*a`, empty registries) at input
`3`: both sides evaluate to `8`. -/
theorem forward_sequential_composition_witness :
    seqRes.forward 3 = seqRes.modules.foldl (fun v m => m v) 3 :=
  forward_sequential_composition seqRes rfl rfl 3

/-- C3: three modules `A`, `B`, `C` added in order with the single shortcut
`(1,3)` — `forward(x)` equals `C.forward(B.forward(A.forward(x)) + A.forward(x))`. -/
theorem resnet_block_forward {α S : Type} [Add α] [SMul S α] [Inhabited α]
    (A B C : α → α) (x : α) :
    Except.map (fun r => r.forward x)
      (((((Residual.empty : Residual α S).add A).add B).add C).addShortcut 1 3 none)
      = .ok (C (B (A x) + A x)) := rfl

/-- C4: three modules `A`, `B`, `C` with shortcuts `(1,3)`, `(1,4)`, `(2,4)`
registered in that order — `forward(x)` equals
`C.forward(B.forward(A(x)) + A(x)) + A(x) + B.forward(A(x))`: the two
shortcuts into the terminal slot `4` are added to the last module's output
and no further module is invoked. -/
theorem double_shortcut_terminal_forward {α S : Type} [Add α] [SMul S α]
    [Inhabited α] (A B C : α → α) (x : α) :
    Except.map (fun r => r.forward x)
      ((((((Residual.empty : Residual α S).add A).add B).add C).addShortcut 1 3 none).bind
        (fun r => (r.addShortcut 1 4 none).bind
          (fun r2 => r2.addShortcut 2 4 none)))
      = .ok (C (B (A x) + A x) + A x + B (A x)) := rfl

/-! ### Registration calls as mutate-or-throw operations

The C++ methods mutate the container or throw, leaving it untouched; the
state-passing wrappers below return the resulting container together with
the raised condition, `none` meaning success. -/

/-- `addShortcut` as a mutate-or-throw call on the container state. -/
def Residual.addShortcutC {α S : Type} (r : Residual α S) (src dst : Int)
    (proj : Option (α → α)) : Residual α S × Option FlError :=
  match r.addShortcut src dst proj with
  | .ok r2 => (r2, none)
  | .error e => (r, some e)

/-- `addScale` as a mutate-or-throw call on the container state. -/
def Residual.addScaleC {α S : Type} (r : Residual α S) (slot : Int)
    (factor : S) : Residual α S × Option FlError :=
  match r.addScale slot factor with
  | .ok r2 => (r2, none)
  | .error e => (r, some e)

/-- C5: `addShortcut(from, to, projection?)` raises `InvalidArgument`
exactly when `from ≥ to`, `from` lies outside `[0, N]` or `to` lies outside
`[1, N+1]`; `addScale(slot, factor)` raises `InvalidArgument` exactly when
`slot` lies outside `[1, N+1]`; and a failing call leaves the container —
modules, shortcut registry and scale registry — unchanged. -/
theorem registration_validation {α S : Type} (r : Residual α S)
    (src dst slot : Int) (proj : Option (α → α)) (factor : S) :
    ((r.addShortcutC src dst proj).2 = some .invalidArgument ↔
      (dst ≤ src ∨ src < 0 ∨ (r.N : Int) < src ∨ dst < 1 ∨ (r.N : Int) + 1 < dst))
    ∧ ((r.addShortcutC src dst proj).2 ≠ none → (r.addShortcutC src dst proj).1 = r)
    ∧ ((r.addScaleC slot factor).2 = some .invalidArgument ↔
      (slot < 1 ∨ (r.N : Int) + 1 < slot))
    ∧ ((r.addScaleC slot factor).2 ≠ none → (r.addScaleC slot factor).1 = r) := by
  refine ⟨?_, ?_, ?_, ?_⟩
  · rw [Residual.addShortcutC, Residual.addShortcut]
    by_cases h : 0 ≤ src ∧ src < dst ∧ src ≤ (r.N : Int) ∧ 1 ≤ dst ∧ dst ≤ (r.N : Int) + 1
    · rw [if_pos h]
      simp only [reduceCtorEq, false_iff]
      omega
    · rw [if_neg h]
      simp only [true_iff]
      omega
  · rw [Residual.addShortcutC, Residual.addShortcut]
    by_cases h : 0 ≤ src ∧ src < dst ∧ src ≤ (r.N : Int) ∧ 1 ≤ dst ∧ dst ≤ (r.N : Int) + 1
    · rw [if_pos h]
      intro hn
      exact absurd rfl hn
    · rw [if_neg h]
      intro _
      rfl
  · rw [Residual.addScaleC, Residual.addScale]
    by_cases h : 1 ≤ slot ∧ slot ≤ (r.N : Int) + 1
    · rw [if_pos h]
      simp only [reduceCtorEq, false_iff]
      omega
    · rw [if_neg h]
      simp only [true_iff]
      omega
  · rw [Residual.addScaleC, Residual.addScale]
    by_cases h : 1 ≤ slot ∧ slot ≤ (r.N : Int) + 1
    · rw [if_pos h]
      intro hn
      exact absurd rfl hn
    · rw [if_neg h]
      intro _
      rfl

/-- A container with five identity modules and empty registries, the spec's
invalid-registration scenario. -/
def fiveRes : Residual ℤ ℤ :=
  ⟨[fun a => a, fun a => a, fun a => a, fun a => a, fun a => a], [], []⟩

/-- C5 instantiated on the spec's scenario: `addShortcut(3, 2)` on a
5-module container raises `InvalidArgument` and the container is unchanged;
`addScale(7, 2)` likewise. -/
theorem registration_validation_witness :
    (fiveRes.addShortcutC 3 2 none).2 = some .invalidArgument
    ∧ (fiveRes.addShortcutC 3 2 none).1 = fiveRes
    ∧ (fiveRes.addScaleC 7 2).2 = some .invalidArgument
    ∧ (fiveRes.addScaleC 7 2).1 = fiveRes := by
  refine ⟨?_, ?_, ?_, ?_⟩
  · exact (registration_validation fiveRes 3 2 7 none 2).1.mpr (by decide)
  · exact (registration_validation fiveRes 3 2 7 none 2).2.1 (by decide)
  · exact (registration_validation fiveRes 3 2 7 none 2).2.2.1.mpr (by decide)
  · exact (registration_validation fiveRes 3 2 7 none 2).2.2.2 (by decide)

/-- Containers reachable through the public building interface: any
interleaving of successful `add`, `addShortcut` and `addScale` calls
starting from the empty container. -/
inductive Built {α S : Type} : Residual α S → Prop where
  | empty : Built Residual.empty
  | add (r : Residual α S) (m : α → α) : Built r → Built (r.add m)
  | shortcut (r r2 : Residual α S) (src dst : Int) (proj : Option (α → α)) :
      Built r → r.addShortcut src dst proj = .ok r2 → Built r2
  | scale (r r2 : Residual α S) (slot : Int) (factor : S) :
      Built r → r.addScale slot factor = .ok r2 → Built r2

theorem built_edges_bounded {α S : Type} {r : Residual α S} (h : Built r) :
    ∀ e ∈ r.shortcuts, e.src < e.dst ∧ e.dst ≤ r.N + 1 := by
  induction h with
  | empty => intro e he; simp [Residual.empty] at he
  | add r m _ ih =>
    intro e he
    have hb := ih e he
    have hN : (r.add m).N = r.N + 1 := by simp [Residual.add, Residual.N]
    exact ⟨hb.1, by omega⟩
  | shortcut r r2 src dst proj _ hok ih =>
    rw [Residual.addShortcut] at hok
    split at hok
    · rename_i hcond
      injection hok with heq
      subst heq
      intro e he
      simp only [List.mem_append, List.mem_singleton] at he
      cases he with
      | inl hold => exact ih e hold
      | inr hnew =>
        subst hnew
        simp only [Residual.N]
        have hN : r.N = r.modules.length := rfl
        constructor
        · omega
        · omega
    · exact absurd hok (by simp)
  | scale r r2 slot factor _ hok ih =>
    rw [Residual.addScale] at hok
    split at hok
    · injection hok with heq
      subst heq
      exact ih
    · exact absurd hok (by simp)

theorem accTableD_congr {α S : Type} [Add α] [SMul S α] (r : Residual α S)
    (hs : ∀ e ∈ r.shortcuts, e.src < e.dst) (d1 d2 x : α) :
    ∀ k, k ≤ r.N → (r.accTableD d1 x).getD k d1 = (r.accTableD d2 x).getD k d2 := by
  intro k
  induction k using Nat.strong_induction_on with
  | _ k ih =>
    intro hk
    match k with
    | 0 =>
      rw [Residual.accTableD, Residual.accTableD,
        runModsD_stable r d1 r.modules 1 [x] 0 (by simp) d1,
        runModsD_stable r d2 r.modules 1 [x] 0 (by simp) d2]
      rfl
    | Nat.succ k =>
      have hN : r.N = r.modules.length := rfl
      have hke : Nat.succ k = k + 1 := rfl
      rw [hke] at hk ⊢
      have h1 := runModsD_getD r d1 d1 hs r.modules 1 [x] (by simp) (le_refl 1)
        k (by omega)
      have h2 := runModsD_getD r d2 d2 hs r.modules 1 [x] (by simp) (le_refl 1)
        k (by omega)
      have harith : 1 + k = k + 1 := by omega
      rw [harith] at h1 h2
      simp only [Residual.accTableD] at ih ⊢
      have hcomb : combineD r d1 (runModsD r d1 r.modules 1 [x]) (k + 1)
          = combineD r d2 (runModsD r d2 r.modules 1 [x]) (k + 1) := by
        apply combineD_congr
        · have hb : k + 1 - 1 = k := by omega
          rw [hb]
          exact ih k (by omega) (by omega)
        · intro e he hdst
          have hsrc : e.src < k + 1 := hdst ▸ hs e he
          exact ih e.src (by omega) (by omega)
      rw [h1, h2, hcomb]

/-- C6: on any container reachable through successful `add`, `addShortcut`
and `addScale` calls, every shortcut edge satisfies
`0 ≤ from < to ≤ N+1` at forward time, and the forward pass never reads an
out-of-range or unassigned accumulation slot: its result does not depend on
the value `d` supplied for out-of-range slot reads. -/
theorem built_forward_safe {α S : Type} [Add α] [SMul S α] (r : Residual α S)
    (h : Built r) :
    (∀ e ∈ r.shortcuts, e.src < e.dst ∧ e.dst ≤ r.N + 1)
    ∧ ∀ (d1 d2 x : α), r.forwardD d1 x = r.forwardD d2 x := by
  have hb := built_edges_bounded h
  have hs : ∀ e ∈ r.shortcuts, e.src < e.dst := fun e he => (hb e he).1
  refine ⟨hb, fun d1 d2 x => ?_⟩
  rw [Residual.forwardD, Residual.forwardD]
  apply combineD_congr
  · have hidx : r.N + 1 - 1 = r.N := by omega
    rw [hidx]
    exact accTableD_congr r hs d1 d2 x r.N (le_refl _)
  · intro e he hdst
    have hsrc : e.src < r.N + 1 := hdst ▸ hs e he
    exact accTableD_congr r hs d1 d2 x e.src (by omega)

/-- A one-module container with one shortcut into the terminal slot,
reached through the public interface. -/
def builtRes : Residual ℤ ℤ := ⟨[fun a => a + 1], [⟨0, 2, none⟩], []⟩

/-- C6 instantiated: `builtRes` is `Built`, and its forward pass at input
`3` is unaffected by replacing the out-of-range default `7` with `9`. -/
theorem built_forward_safe_witness : builtRes.forwardD 7 3 = builtRes.forwardD 9 3 :=
  (built_forward_safe builtRes
    (Built.shortcut (Residual.empty.add (fun a => a + 1)) builtRes 0 2 none
      (Built.add Residual.empty (fun a => a + 1) Built.empty) rfl)).2 7 9 3

/-! ### One forward invocation as an operation on mutable process state -/

/-- The process state around a container: the container itself and the
accumulation buffer left over from a previous forward invocation. -/
structure RState (α S : Type) where
  container : Residual α S
  scratch : List α

/-- Modelled from the spec: a `forward` call on the process state — the
accumulation table is re-initialized from the input (spec step 1), filled
by the single pass and retained, while the module chain and the two
registries are only read. -/
def RState.forwardImpl {α S : Type} [Add α] [SMul S α] [Inhabited α]
    (s : RState α S) (x : α) : α × RState α S :=
  (combineD s.container default (s.container.accTableD default x) (s.container.N + 1),
    ⟨s.container, s.container.accTableD default x⟩)

/-- C7: a forward invocation is deterministic and side-effect-free on the
container: its output agrees with the pure `forward`, depends only on the
container component of the state (not on leftover scratch), leaves the
container — modules and registries — unchanged, and an immediately repeated
invocation with the same input returns a bit-identical output. -/
theorem forward_deterministic_pure {α S : Type} [Add α] [SMul S α]
    [Inhabited α] (s1 s2 : RState α S) (x : α)
    (hc : s1.container = s2.container) :
    (s1.forwardImpl x).1 = (s2.forwardImpl x).1
    ∧ (s1.forwardImpl x).1 = s1.container.forward x
    ∧ (s1.forwardImpl x).2.container = s1.container
    ∧ ((s1.forwardImpl x).2.forwardImpl x).1 = (s1.forwardImpl x).1 := by
  refine ⟨?_, rfl, rfl, rfl⟩
  rw [RState.forwardImpl, RState.forwardImpl, hc]

/-- C7 instantiated: two states holding `sampleRes` with different leftover
scratch buffers produce the same output at input `1`. -/
theorem forward_deterministic_pure_witness :
    ((⟨sampleRes, []⟩ : RState ℤ ℤ).forwardImpl 1).1
      = ((⟨sampleRes, [99]⟩ : RState ℤ ℤ).forwardImpl 1).1 :=
  (forward_deterministic_pure ⟨sampleRes, []⟩ ⟨sampleRes, [99]⟩ 1 rfl).1

/-! ### Duplicate scale registrations -/

theorem filter_ne_idem {S : Type} (l : List (Nat × S)) (k : Nat) :
    (l.filter (fun p => p.1 ≠ k)).filter (fun p => p.1 ≠ k)
      = l.filter (fun p => p.1 ≠ k) := by
  induction l with
  | nil => rfl
  | cons a t ih =>
    by_cases h : a.1 = k
    · simp [List.filter_cons, h, ih]
    · simp [List.filter_cons, h, ih]

theorem lookup_filter_ne {S : Type} (l : List (Nat × S)) (k : Nat) :
    (l.filter (fun p => p.1 ≠ k)).lookup k = none := by
  induction l with
  | nil => rfl
  | cons a t ih =>
    obtain ⟨k1, v1⟩ := a
    by_cases h : k1 = k
    · rw [List.filter_cons_of_neg (by simp [h])]
      exact ih
    · rw [List.filter_cons_of_pos (by simp [h]), List.lookup_cons]
      have hb : (k == k1) = false := by
        simp [Ne.symm h]
      rw [hb]
      simpa using ih

theorem countP_filter_ne {S : Type} (l : List (Nat × S)) (k : Nat) :
    (l.filter (fun p => p.1 ≠ k)).countP (fun p => p.1 == k) = 0 := by
  induction l with
  | nil => rfl
  | cons a t ih =>
    by_cases h : a.1 = k
    · simp [List.filter_cons, h, ih]
    · simp [List.filter_cons, List.countP_cons, h, ih]

/-- C8: a later `addScale` on the same slot overrides the earlier one:
registering `f1` then `f2` for slot `k` is the same call sequence as
registering `f2` alone, the resulting registry holds exactly one entry for
`k`, that entry carries `f2`, and the scaling that `forward` applies at
slot `k` multiplies by `f2` — not `f1` and not `f1 * f2`. -/
theorem addScale_last_write_wins {α S : Type} [SMul S α] (r : Residual α S)
    (k : Int) (f1 f2 : S) :
    (Except.bind (r.addScale k f1) (fun r1 => r1.addScale k f2) = r.addScale k f2)
    ∧ ∀ r2, Except.bind (r.addScale k f1) (fun r1 => r1.addScale k f2) = .ok r2 →
        r2.scales.countP (fun p => p.1 == k.toNat) = 1
        ∧ r2.scales.lookup k.toNat = some f2
        ∧ ∀ v : α, scaleAt r2.scales k.toNat v = f2 • v := by
  have hmain : Except.bind (r.addScale k f1) (fun r1 => r1.addScale k f2)
      = r.addScale k f2 := by
    by_cases hc : 1 ≤ k ∧ k ≤ (r.N : Int) + 1
    · have h1 : r.addScale k f1 = .ok { r with scales :=
          (r.scales.filter (fun p => p.1 ≠ k.toNat)) ++ [(k.toNat, f1)] } := by
        rw [Residual.addScale, if_pos hc]
      rw [h1]
      show ({ r with scales :=
          (r.scales.filter (fun p => p.1 ≠ k.toNat)) ++ [(k.toNat, f1)] } :
          Residual α S).addScale k f2 = r.addScale k f2
      have hc2 : 1 ≤ k ∧ k ≤ ((({ r with scales :=
          (r.scales.filter (fun p => p.1 ≠ k.toNat)) ++ [(k.toNat, f1)] } :
          Residual α S).N : Int)) + 1 := hc
      rw [Residual.addScale, Residual.addScale, if_pos hc2, if_pos hc]
      refine congrArg Except.ok ?_
      have hsc : (((r.scales.filter (fun p => p.1 ≠ k.toNat)) ++
            [(k.toNat, f1)]).filter (fun p => p.1 ≠ k.toNat)) ++ [(k.toNat, f2)]
          = (r.scales.filter (fun p => p.1 ≠ k.toNat)) ++ [(k.toNat, f2)] := by
        rw [List.filter_append, filter_ne_idem]
        have hone : ([(k.toNat, f1)].filter (fun p => p.1 ≠ k.toNat)) = [] := by
          simp
        rw [hone, List.append_nil]
      exact congrArg (Residual.mk r.modules r.shortcuts) hsc
    · have h1 : r.addScale k f1 = .error .invalidArgument := by
        rw [Residual.addScale, if_neg hc]
      have h2 : r.addScale k f2 = .error .invalidArgument := by
        rw [Residual.addScale, if_neg hc]
      rw [h1, h2]
      rfl
  refine ⟨hmain, fun r2 hok => ?_⟩
  rw [hmain, Residual.addScale] at hok
  split at hok
  · injection hok with heq
    subst heq
    refine ⟨?_, ?_, ?_⟩
    · simp only [List.countP_append, countP_filter_ne]
      simp [List.countP_cons]
    · rw [List.lookup_append, lookup_filter_ne]
      simp [List.lookup_cons]
    · intro v
      rw [scaleAt]
      rw [List.lookup_append, lookup_filter_ne]
      simp [List.lookup_cons]
  · exact absurd hok (by simp)

/-- C8 instantiated on the two-module container `seqRes` over `ℤ`:
registering scale `2` then scale `5` for slot `1` leaves one entry for
slot `1`, holding `5`, and `forward`'s scaling step at slot `1`
multiplies by `5`. -/
theorem addScale_last_write_wins_witness :
    ({ seqRes with scales := [(1, 5)] } : Residual ℤ ℤ).scales.countP
        (fun p => p.1 == 1) = 1
    ∧ ({ seqRes with scales := [(1, 5)] } : Residual ℤ ℤ).scales.lookup 1
        = some 5
    ∧ scaleAt ({ seqRes with scales := [(1, 5)] } : Residual ℤ ℤ).scales 1
        (3 : ℤ) = 5 * 3 :=
  have h := (addScale_last_write_wins seqRes 1 2 5).2
    { seqRes with scales := [(1, 5)] } (by rfl)
  ⟨h.1, h.2.1, h.2.2 3⟩

/-! ### Object identity of added modules (store model) -/

theorem getD_set_ne {β : Type} (l : List β) (i j : Nat) (g : β) (d : β)
    (h : i ≠ j) : (l.set i g).getD j d = l.getD j d := by
  induction l generalizing i j with
  | nil => rfl
  | cons a t ih =>
    cases i with
    | zero =>
      cases j with
      | zero => exact absurd rfl h
      | succ j => rfl
    | succ i =>
      cases j with
      | zero => rfl
      | succ j => exact ih i j (fun hij => h (by rw [hij]))

/-- Modelled from the spec: `container.add(m)` with module object identity
made explicit.  The store is the heap of module objects (each cell holds a
transfer function); the container is the list of cells it owns, in chain
order.  Per the design document the container takes ownership of the
module, so `add` allocates a fresh cell holding a copy of the given
object's current function and appends that cell to the container; the
given cell itself is not touched. -/
def refAdd {α : Type} (st : List (α → α)) (c : List Nat) (i : Nat) :
    (List (α → α)) × List Nat :=
  (st ++ [st.getD i (fun a => a)], c ++ [st.length])

/-- Running a container's chain of owned cells against the store (the
no-shortcut, no-scale forward pass in the store model). -/
def refRun {α : Type} (st : List (α → α)) (c : List Nat) (x : α) : α :=
  c.foldl (fun v j => (st.getD j (fun a => a)) v) x

/-- C9: `add(m)` copies the module rather than aliasing it.  Adding cell
`i` to container `c1` and then to container `c2`: the original cell still
holds its old function; each container's new entry is a fresh cell whose
function equals the original's at the time of the add; the two fresh cells
are distinct from each other and from the original; and overwriting the
original cell afterwards does not change what either container computes
through its copy. -/
theorem add_copies_module {α : Type} (st : List (α → α)) (c1 c2 : List Nat)
    (i : Nat) (hi : i < st.length) :
    (refAdd (refAdd st c1 i).1 c2 i).1.getD i (fun a => a)
        = st.getD i (fun a => a)
    ∧ (refAdd st c1 i).2.getD ((refAdd st c1 i).2.length - 1) 0 = st.length
    ∧ (refAdd (refAdd st c1 i).1 c2 i).2.getD
        ((refAdd (refAdd st c1 i).1 c2 i).2.length - 1) 0 = st.length + 1
    ∧ (refAdd (refAdd st c1 i).1 c2 i).1.getD st.length (fun a => a)
        = st.getD i (fun a => a)
    ∧ (refAdd (refAdd st c1 i).1 c2 i).1.getD (st.length + 1) (fun a => a)
        = st.getD i (fun a => a)
    ∧ st.length ≠ i ∧ st.length + 1 ≠ i ∧ st.length ≠ st.length + 1
    ∧ ∀ (g : α → α) (x : α),
        refRun ((refAdd (refAdd st c1 i).1 c2 i).1.set i g) [st.length] x
            = (st.getD i (fun a => a)) x
        ∧ refRun ((refAdd (refAdd st c1 i).1 c2 i).1.set i g) [st.length + 1] x
            = (st.getD i (fun a => a)) x := by
  have hst1 : (refAdd st c1 i).1 = st ++ [st.getD i (fun a => a)] := rfl
  have hg1 : (st ++ [st.getD i (fun a => a)]).getD i (fun a => a)
      = st.getD i (fun a => a) := getD_append_lt st _ _ i hi
  have hcell1 : (refAdd (refAdd st c1 i).1 c2 i).1.getD st.length (fun a => a)
      = st.getD i (fun a => a) := by
    rw [refAdd, refAdd]
    rw [getD_append_lt _ _ _ st.length (by simp)]
    exact getD_append_len st _ _
  have hcell2 : (refAdd (refAdd st c1 i).1 c2 i).1.getD (st.length + 1)
      (fun a => a) = st.getD i (fun a => a) := by
    rw [refAdd, refAdd, hg1]
    have hlen : (st ++ [st.getD i (fun a => a)]).length = st.length + 1 := by
      simp
    rw [← hlen]
    exact getD_append_len _ _ _
  refine ⟨?_, ?_, ?_, hcell1, hcell2, by omega, by omega, by omega, ?_⟩
  · rw [refAdd, refAdd]
    rw [getD_append_lt _ _ _ i (by simp; omega), getD_append_lt _ _ _ i hi]
  · rw [refAdd]
    simp only [List.length_append, List.length_cons, List.length_nil]
    have hidx : c1.length + (0 + 1) - 1 = c1.length := by omega
    rw [hidx]
    exact getD_append_len c1 _ _
  · rw [refAdd, refAdd]
    simp only [List.length_append, List.length_cons, List.length_nil]
    have hidx : c2.length + (0 + 1) - 1 = c2.length := by omega
    rw [hidx]
    rw [getD_append_len c2 _ _]
  · intro g x
    constructor
    · show ((refAdd (refAdd st c1 i).1 c2 i).1.set i g).getD st.length
          (fun a => a) x = (st.getD i (fun a => a)) x
      rw [getD_set_ne _ _ _ _ _ (by omega), hcell1]
    · show ((refAdd (refAdd st c1 i).1 c2 i).1.set i g).getD (st.length + 1)
          (fun a => a) x = (st.getD i (fun a => a)) x
      rw [getD_set_ne _ _ _ _ _ (by omega), hcell2]

/-- C9 instantiated on a two-cell integer store: adding cell `0` to two
containers leaves the original unchanged and yields independent copies. -/
theorem add_copies_module_witness :
    (refAdd (refAdd [fun a => a + 1, fun a => 2 * a] [] 0).1 [1] 0).1.getD 0
        (fun a => a)
      = ([fun a => a + 1, fun a => (2 : ℤ) * a].getD 0 (fun a => a)) :=
  (add_copies_module [fun a => a + 1, fun a => 2 * a] [] [1] 0 (by simp)).1

/-! ### divRoundUp -/

/-- Modelled from the spec: `fl::divRoundUp` is declared in
`flashlight/common/Utils.h` as "Returns round-up result of integer
division.  throws invalid_argument exception on zero denominator"; its body
is not under `src/`.  `size_t` is modelled as `Nat` and the thrown
exception as an `Except.error`. -/
def divRoundUp (numerator denominator : Nat) : Except String Nat :=
  if denominator = 0 then .error "invalid_argument"
  else .ok ((numerator + denominator - 1) / denominator)

/-- C10: `divRoundUp(n, d)` throws `invalid_argument` exactly when `d = 0`,
and for `d > 0` it returns the ceiling of `n / d` — the least `k` with
`k * d ≥ n`. -/
theorem divRoundUp_spec (n d : Nat) :
    (divRoundUp n d = .error "invalid_argument" ↔ d = 0)
    ∧ ∀ q, divRoundUp n d = .ok q → n ≤ q * d ∧ ∀ k, n ≤ k * d → q ≤ k := by
  constructor
  · rw [divRoundUp]
    by_cases h : d = 0
    · rw [if_pos h]
      simp [h]
    · rw [if_neg h]
      simp [h]
  · intro q hq
    rw [divRoundUp] at hq
    by_cases h : d = 0
    · rw [if_pos h] at hq
      exact absurd hq (by simp)
    · rw [if_neg h] at hq
      injection hq with hq
      subst hq
      have hd : 0 < d := Nat.pos_of_ne_zero h
      constructor
      · have hdm := Nat.div_add_mod (n + d - 1) d
        have hml := Nat.mod_lt (n + d - 1) hd
        rw [Nat.mul_comm]
        generalize hP : d * ((n + d - 1) / d) = P at hdm ⊢
        generalize hM : (n + d - 1) % d = M at hdm hml
        omega
      · intro k hk
        rw [Nat.div_le_iff_le_mul_add_pred hd]
        rw [Nat.mul_comm] at hk
        generalize hK : d * k = K at hk ⊢
        omega

/-- C10 instantiated at `n = 7`, `d = 3`: the result `3` satisfies
`7 ≤ 3 * 3` and is minimal among all `k` with `7 ≤ k * 3`, such as `k = 4`. -/
theorem divRoundUp_spec_witness : 7 ≤ 3 * 3 ∧ (3 : Nat) ≤ 4 :=
  ⟨((divRoundUp_spec 7 3).2 3 (by rfl)).1,
    ((divRoundUp_spec 7 3).2 3 (by rfl)).2 4 (by decide)⟩
